import Mathlib

/-!
Shallow embedding of the GgUd-AI recommendation backend core
(`app/services/recommendation.py`, `app/models/review_embedding.py`,
`app/models/place.py`, `app/schemas/place.py`, `app/core/config.py`,
`scripts/generate_embeddings.py`), together with theorems checking the
natural-language specification against it.

Modelling conventions:
* Python strings are Lean `String`; `str.split(",")` is `String.splitOn ","`;
  `str.strip()` is `String.trim`.
* Embedding vectors are opaque payloads `Vec := List ℚ`; the external
  OpenAI embedding call (`llm_service.embed_text`) is a parameter.  In the
  ingestion pipeline it may fail (an `EmbeddingError` aborts the call), so
  there it has type `String → Except Unit Vec`.
* The pgvector `cosine_distance` operator is external library code; the
  scorer is parametrised by a distance function `dist : Vec → Vec → ℚ`.
* The SQLAlchemy session is a pair of committed rows and pending
  (`db.add`-ed, not yet committed) rows.  `db.commit()` moves pending rows
  into the committed list.  Queries see committed and pending rows
  (autoflush); an exception leaves the session as is — the code has no
  rollback in `refresh_embeddings`.
* Floating point numbers are modelled as rationals, except the haversine
  computation which uses real trigonometric functions.
-/

namespace GgUd

/-- The four category keys of `CATEGORY_KEYS` in
`app/services/recommendation.py` (the Python code uses the strings
"companion", "menu", "mood", "purpose"). -/
inductive CatKey where
  | companion
  | menu
  | mood
  | purpose
deriving DecidableEq, Repr

/-- Mirrors `CATEGORY_KEYS = ("companion", "menu", "mood", "purpose")`. -/
def CATEGORY_KEYS : List CatKey := [.companion, .menu, .mood, .purpose]

/-- Mirrors the fixed `CATEGORY_WEIGHTS` dict: companion 1.0, menu 0.8,
mood 0.6, purpose 0.4.  All four keys are present, so the Python
`CATEGORY_WEIGHTS.get(key, 1.0)` fallback never fires and a total function
is faithful. -/
def CATEGORY_WEIGHTS : CatKey → ℚ
  | .companion => 1
  | .menu => 8/10
  | .mood => 6/10
  | .purpose => 4/10

/-- Mirrors `app/schemas/review.py` `CategoryInfo`: four optional strings. -/
structure CategoryInfo where
  companion : Option String := none
  menu : Option String := none
  mood : Option String := none
  purpose : Option String := none
deriving DecidableEq, Repr

/-- Mirrors Python `getattr(categories, key)` for the four keys. -/
def CategoryInfo.get (c : CategoryInfo) : CatKey → Option String
  | .companion => c.companion
  | .menu => c.menu
  | .mood => c.mood
  | .purpose => c.purpose

/-- Embedding payload; opaque to the core logic. -/
abbrev Vec : Type := List ℚ

/-- Mirrors the `review_embeddings` row of `app/models/review_embedding.py`
(`PlaceEmbedding`): place_id, category, value_text, embedding.  The
surrogate `id` column carries no logic and is omitted. -/
structure PlaceEmbedding where
  place_id : Int
  category : CatKey
  value_text : String
  embedding : Vec
deriving DecidableEq

/-- The key of the declared store-level uniqueness constraint
`uq_review_category_value` (`UniqueConstraint("place_id", "category",
"value_text")` in `app/models/review_embedding.py`). -/
def tripleKey (e : PlaceEmbedding) : Int × CatKey × String :=
  (e.place_id, e.category, e.value_text)

/-- The invariant declared by the `uq_review_category_value` unique
constraint: no two rows share the triple (place_id, category, value_text). -/
def uq_review_category_value (rows : List PlaceEmbedding) : Prop :=
  (rows.map tripleKey).Nodup

instance (rows : List PlaceEmbedding) : Decidable (uq_review_category_value rows) :=
  inferInstanceAs (Decidable ((rows.map tripleKey).Nodup))

/-- SQLAlchemy session over the `review_embeddings` table: committed rows
plus rows staged with `db.add` but not yet committed. -/
structure DbSession where
  committed : List PlaceEmbedding
  pending : List PlaceEmbedding
deriving DecidableEq

/-- Modelled from the spec: the session factory `app/db/session.py` is not
part of the sources; per the spec's in-call dedup requirement (§4.2, and
standard SQLAlchemy autoflush) a query made through the session sees the
committed rows and the rows staged earlier in the same session. -/
def DbSession.visible (s : DbSession) : List PlaceEmbedding :=
  s.committed ++ s.pending

/-- Mirrors `db.commit()`: pending rows become durable. -/
def DbSession.commit (s : DbSession) : DbSession :=
  ⟨s.committed ++ s.pending, []⟩

/-- Mirrors the existence check of `refresh_embeddings`:
`db.query(PlaceEmbedding).filter(place_id, category, value_text).first()`. -/
def existsTriple (s : DbSession) (pid : Int) (cat : CatKey) (v : String) : Bool :=
  s.visible.any fun e =>
    e.place_id = pid && e.category = cat && e.value_text = v

/-- Mirrors Python `str.split(",")` (structural recursion over the
character list): split at every comma, keeping empty pieces. -/
def splitCommaAux : List Char → List Char → List String
  | [], cur => [String.mk cur.reverse]
  | c :: cs, cur =>
      if c = ',' then String.mk cur.reverse :: splitCommaAux cs []
      else splitCommaAux cs (c :: cur)

/-- Mirrors Python `str.split(",")` on a string. -/
def pySplitComma (s : String) : List String :=
  splitCommaAux s.data []

/-- Mirrors Python `str.strip()`: drop whitespace from both ends. -/
def pyStrip (s : String) : String :=
  String.mk (((s.data.dropWhile Char.isWhitespace).reverse.dropWhile
    Char.isWhitespace).reverse)

/-- Mirrors the inner helper `split_values` of `refresh_embeddings`: split
on comma, trim each token, drop empty tokens; `None` (and the falsy empty
string) yield the empty list. -/
def split_values (value : Option String) : List String :=
  match value with
  | none => []
  | some v => ((pySplitComma v).map pyStrip).filter (fun t => t ≠ "")

/-- State threaded through one `refresh_embeddings` call: the session, the
`inserted` and `skipped` counters, and whether an exception has been
raised (a failed embedding call aborts the loop and propagates). -/
structure IngestState where
  sess : DbSession
  inserted : Nat
  skipped : Nat
  failed : Bool
deriving DecidableEq

/-- One iteration of the inner loop of `refresh_embeddings` for a single
trimmed token: if the triple already exists the token is skipped,
otherwise `llm_service.embed_text` is called and the new row staged with
`db.add`.  A raised exception short-circuits the rest of the call. -/
def ingestToken (embedE : String → Except Unit Vec) (pid : Int) (cat : CatKey)
    (st : IngestState) (tok : String) : IngestState :=
  if st.failed then st
  else if existsTriple st.sess pid cat tok then
    { st with skipped := st.skipped + 1 }
  else
    match embedE tok with
    | .error _ => { st with failed := true }
    | .ok v =>
        { st with
          sess := ⟨st.sess.committed, st.sess.pending ++ [⟨pid, cat, tok, v⟩]⟩
          inserted := st.inserted + 1 }

/-- The per-category body of `refresh_embeddings`: skip falsy values, split
the value and process each token in order. -/
def ingestCategory (embedE : String → Except Unit Vec) (pid : Int)
    (cats : CategoryInfo) (st : IngestState) (key : CatKey) : IngestState :=
  match cats.get key with
  | none => st
  | some v =>
      if v = "" then st
      else (split_values (some v)).foldl (ingestToken embedE pid key) st

/-- The whole body of `refresh_embeddings` after category extraction:
iterate the four category keys, then `db.commit()`.  If an exception was
raised there is no commit and no rollback: the session keeps the rows
staged before the failure. -/
def ingestRun (embedE : String → Except Unit Vec) (s : DbSession) (pid : Int)
    (cats : CategoryInfo) : IngestState :=
  let st := CATEGORY_KEYS.foldl (ingestCategory embedE pid cats) ⟨s, 0, 0, false⟩
  if st.failed then st else { st with sess := st.sess.commit }

/-- Mirrors `refresh_embeddings(db, place_id, content)` of
`app/services/recommendation.py`: extract categories, ingest every token,
commit, and return `(categories, inserted)`.  The returned session is the
session object as the caller sees it afterwards (on an exception the
result is an error and the staged rows are still pending). -/
def refresh_embeddings (extract : String → CategoryInfo)
    (embedE : String → Except Unit Vec) (s : DbSession) (pid : Int)
    (content : String) : Except Unit (CategoryInfo × Nat) × DbSession :=
  let cats := extract content
  let st := ingestRun embedE s pid cats
  (if st.failed then .error () else .ok (cats, st.inserted), st.sess)

/-- Mirrors the review loop of `generate_embeddings_for_place`
(`scripts/generate_embeddings.py` lines 44-55): for each review, skip blank
content, call `refresh_embeddings`, and on an exception print and continue
with the same session — there is no rollback.  Returns the session and the
pair (processed, total_inserted). -/
def generate_embeddings_for_place (extract : String → CategoryInfo)
    (embedE : String → Except Unit Vec) (s : DbSession) (pid : Int)
    (reviews : List String) : DbSession × Nat × Nat :=
  reviews.foldl
    (fun acc content =>
      if pyStrip content = "" then acc
      else
        match refresh_embeddings extract embedE acc.1 pid content with
        | (.ok (_, ins), s') => (s', acc.2.1 + 1, acc.2.2 + ins)
        | (.error _, s') => (s', acc.2.1, acc.2.2))
    (s, 0, 0)

/-- An embedding function that never fails, wrapping a total
`String → Vec`; models runs in which every external embedding call
succeeds. -/
def totalEmbed (f : String → Vec) : String → Except Unit Vec :=
  fun t => .ok (f t)

/-- The trimmed tokens a `refresh_embeddings` call processes for one
category key (empty for a missing or falsy value). -/
def tokensFor (cats : CategoryInfo) (key : CatKey) : List String :=
  match cats.get key with
  | none => []
  | some v => if v = "" then [] else split_values (some v)

/-- Total number of tokens processed by one call over the four keys. -/
def totalTokens (cats : CategoryInfo) : Nat :=
  (CATEGORY_KEYS.map fun k => (tokensFor cats k).length).sum

/-- A sequence of `refresh_embeddings` calls threaded through one session,
as `scripts/generate_embeddings.py` does (the session is reused across
calls, also after a failed call). -/
def runIngests (extract : String → CategoryInfo)
    (embedE : String → Except Unit Vec) (calls : List (Int × String))
    (s : DbSession) : DbSession :=
  calls.foldl (fun sess c => (refresh_embeddings extract embedE sess c.1 c.2).2) s

/-- Mirrors the `places` row of `app/models/place.py`.  Only the columns
read by the scorer and by `PlaceOut` are modelled; the nullable metadata
columns (road_address, rating, review_count, phone, crawled_at,
updated_at) carry no logic in the core. -/
structure Place where
  id : Int
  name : String
  category : String
  origin_address : String
  latitude : ℚ
  longitude : ℚ
deriving DecidableEq, Repr

/-- Mirrors `app/schemas/place.py` `PlaceOut` (= `PlaceBase`). -/
structure PlaceOut where
  id : Int
  name : String
  category : String
  origin_address : String
  latitude : ℚ
  longitude : ℚ
deriving DecidableEq, Repr

/-- Mirrors `PlaceOut.model_validate(place)`: project the ORM row onto the
schema fields. -/
def PlaceOut.ofPlace (p : Place) : PlaceOut :=
  ⟨p.id, p.name, p.category, p.origin_address, p.latitude, p.longitude⟩

/-- Mirrors the part of `app/core/config.py` `Settings` the scorer reads. -/
structure Settings where
  recommendation_top_k : Nat
deriving DecidableEq

/-- The `Settings` value when `RECOMMENDATION_TOP_K` is not overridden in
the environment: `int(os.getenv("RECOMMENDATION_TOP_K", "5")) = 5`. -/
def defaultSettings : Settings := ⟨5⟩

/-- Mirrors `limit = limit or settings.recommendation_top_k`: Python `or`
replaces both `None` and the falsy `0` by the configured default. -/
def effectiveLimit (limit : Option Nat) (topK : Nat) : Nat :=
  match limit with
  | none => topK
  | some n => if n = 0 then topK else n

/-- First-occurrence deduplication, the order in which SQL `GROUP BY
place_id` groups are formed in the model (grouping order is not
observable once the rows are sorted by distance). -/
def dedupFirst (l : List Int) : List Int :=
  l.foldl (fun acc x => if acc.any (fun y => y = x) then acc else acc ++ [x]) []

/-- Minimum of a list of rationals (`func.min(distance)` over a group;
the group is never empty, the `[]` case is unreachable). -/
def minRat : List ℚ → ℚ
  | [] => 0
  | x :: xs => xs.foldl min x

/-- Stable insertion into a list sorted ascending by the second component;
an element is placed before the first strictly larger key, so equal keys
keep their original relative order. -/
def insertAsc (x : Int × ℚ) : List (Int × ℚ) → List (Int × ℚ)
  | [] => [x]
  | y :: ys => if x.2 ≤ y.2 then x :: y :: ys else y :: insertAsc x ys

/-- Stable sort ascending by the second component (the model of SQL
`ORDER BY score`). -/
def sortAsc (l : List (Int × ℚ)) : List (Int × ℚ) :=
  l.foldr insertAsc []

/-- Mirrors `_similar_places_stmt(category, query_vector, limit)` executed
against the store: restrict to the category, group by place_id keeping the
minimum cosine distance, order by that distance ascending, and take
`limit` rows.  `dist` stands for the external pgvector
`cosine_distance` operator. -/
def similar_places (dist : Vec → Vec → ℚ) (store : List PlaceEmbedding)
    (cat : CatKey) (qv : Vec) (lim : Nat) : List (Int × ℚ) :=
  let rows := store.filter fun e => e.category = cat
  let pids := dedupFirst (rows.map (·.place_id))
  let grouped := pids.map fun p =>
    (p, minRat (((rows.filter fun e => e.place_id = p).map (·.embedding)).map (dist qv)))
  (sortAsc grouped).take lim

/-- Mirrors the Python dict update `place_scores[place_id] += weighted`
(with `place_scores[place_id] = 0.0` on first sight): an insertion-ordered
association list, updated in place, appended on first occurrence. -/
def addScore (m : List (Int × ℚ)) (pid : Int) (w : ℚ) : List (Int × ℚ) :=
  if m.any (fun e => e.1 = pid) then
    m.map fun e => if e.1 = pid then (e.1, e.2 + w) else e
  else m ++ [(pid, w)]

/-- Mirrors `place_scores[place.id]` lookup (`0` is never used on the
code's paths: every looked-up id is present). -/
def lookupScore (m : List (Int × ℚ)) (pid : Int) : ℚ :=
  ((m.find? fun e => e.1 = pid).map (·.2)).getD 0

/-- The body of the per-category iteration of `recommend_places` (lines
131-151): skip a falsy value, embed the whole field value, fetch the
candidate rows, convert each distance to the similarity `1 - d/2`,
multiply by the category weight and add into the score map. -/
def scoreStep (embed : String → Vec) (dist : Vec → Vec → ℚ)
    (store : List PlaceEmbedding) (cats : CategoryInfo) (candLim : Nat)
    (m : List (Int × ℚ)) (key : CatKey) : List (Int × ℚ) :=
  match cats.get key with
  | none => m
  | some v =>
      if v = "" then m
      else
        let rows := similar_places dist store key (embed v) candLim
        rows.foldl
          (fun m' r => addScore m' r.1 ((1 - r.2 / 2) * CATEGORY_WEIGHTS key))
          m

/-- Mirrors the accumulation loop of `recommend_places` (lines 131-151):
iterate `scoreStep` over the four category keys starting from the empty
score map. -/
def place_scores (embed : String → Vec) (dist : Vec → Vec → ℚ)
    (store : List PlaceEmbedding) (cats : CategoryInfo) (candLim : Nat) :
    List (Int × ℚ) :=
  CATEGORY_KEYS.foldl (scoreStep embed dist store cats candLim) []

/-- The per-category contribution the spec ascribes to a place: weight
times similarity `1 - d/2` for the place's candidate row of that
category, `0` when the place is absent from the category's candidates
(stated as a sum over the matching rows; `similar_places` yields at most
one row per place). -/
def categoryContribution (embed : String → Vec) (dist : Vec → Vec → ℚ)
    (store : List PlaceEmbedding) (cats : CategoryInfo) (candLim : Nat)
    (key : CatKey) (pid : Int) : ℚ :=
  match cats.get key with
  | none => 0
  | some v =>
      if v = "" then 0
      else
        (((similar_places dist store key (embed v) candLim).filter
            (fun r => r.1 = pid)).map
          (fun r => (1 - r.2 / 2) * CATEGORY_WEIGHTS key)).sum

/-- Mirrors the `location_filter` dict of `recommend_places`: latitude and
longitude are required keys, `radius_km` is read with
`location_filter.get("radius_km", 10.0)`. -/
structure LocationFilter where
  latitude : ℚ
  longitude : ℚ
  radius_km : Option ℚ
deriving DecidableEq

/-- Mirrors `location_filter.get("radius_km", 10.0)`. -/
def effRadius (f : LocationFilter) : ℚ :=
  f.radius_km.getD 10

/-- Mirrors the inline haversine computation of `recommend_places` (lines
167-179): convert the degree coordinates to radians, apply the haversine
formula and scale by the spherical Earth radius R = 6371 km. -/
noncomputable def haversine_km (lat lon plat plon : ℝ) : ℝ :=
  let R : ℝ := 6371
  let lat1 := lat * Real.pi / 180
  let lon1 := lon * Real.pi / 180
  let lat2 := plat * Real.pi / 180
  let lon2 := plon * Real.pi / 180
  let dlat := lat2 - lat1
  let dlon := lon2 - lon1
  let a := Real.sin (dlat / 2) ^ 2 + Real.cos lat1 * Real.cos lat2 * Real.sin (dlon / 2) ^ 2
  let c := 2 * Real.arcsin (Real.sqrt a)
  R * c

open Classical in
/-- Mirrors the geo-filter block of `recommend_places` (lines 156-184):
fetch the Place rows whose id appears in the score map, keep exactly those
within `radius_km` of the center (boundary inclusive) and rebuild the score
dict for them; every other place is dropped with its score. -/
noncomputable def applyGeoFilter (places : List Place) (scores : List (Int × ℚ))
    (f : LocationFilter) : List (Int × ℚ) :=
  let all_candidates := places.filter fun p => scores.any fun e => e.1 = p.id
  all_candidates.foldl
    (fun acc p =>
      if haversine_km (f.latitude : ℝ) (f.longitude : ℝ) (p.latitude : ℝ) (p.longitude : ℝ)
          ≤ (effRadius f : ℝ)
      then acc ++ [(p.id, lookupScore scores p.id)]
      else acc)
    []

/-- Stable insertion into a list sorted descending by the second
component; an element is placed before the first key less than or equal to
its own, so equal keys keep their original relative order — the behaviour
of Python's stable `sorted(..., key=score, reverse=True)` on the
insertion-ordered dict. -/
def insertDesc (x : Int × ℚ) : List (Int × ℚ) → List (Int × ℚ)
  | [] => [x]
  | y :: ys => if y.2 ≤ x.2 then x :: y :: ys else y :: insertDesc x ys

/-- Stable sort descending by the second component, the model of
`sorted(place_scores.items(), key=lambda x: x[1], reverse=True)`. -/
def sortDesc (l : List (Int × ℚ)) : List (Int × ℚ) :=
  l.foldr insertDesc []

/-- Mirrors `recommend_places(db, categories, limit, location_filter)` of
`app/services/recommendation.py`: resolve the limit, accumulate weighted
scores, optionally geo-filter, rank descending (ties by score-map order),
take the top `limit`, fetch the Place rows in rank order and return
`(list of PlaceOut, categories)`.  The Python code fetches the rows with
`WHERE id IN top_place_ids` and stably sorts them by
`top_place_ids.index(p.id)`; since `id` is the primary key of `places`
this equals looking each ranked id up in the table, which is how the
fetch-and-reorder step is rendered here. -/
noncomputable def recommend_places (embed : String → Vec) (dist : Vec → Vec → ℚ)
    (store : List PlaceEmbedding) (places : List Place) (cats : CategoryInfo)
    (limit : Option Nat) (location_filter : Option LocationFilter)
    (s : Settings) : List PlaceOut × CategoryInfo :=
  let lim := effectiveLimit limit s.recommendation_top_k
  let scores := place_scores embed dist store cats (lim * 3)
  if scores = [] then ([], cats)
  else
    let scores' :=
      match location_filter with
      | none => scores
      | some f => applyGeoFilter places scores f
    let sorted_place_ids := (sortDesc scores').take lim
    if sorted_place_ids = [] then ([], cats)
    else
      let top_place_ids := sorted_place_ids.map (·.1)
      let ordered_places :=
        top_place_ids.filterMap fun pid => places.find? fun p => p.id = pid
      (ordered_places.map PlaceOut.ofPlace, cats)

deriving instance DecidableEq for Except

/-! Concrete fixtures used to evaluate the embedded code on the spec's
example inputs. -/

/-- Extractor fixture: review "r1" yields menu "a,b", review "r2" yields
mood "c", anything else yields no categories. -/
def extractAB : String → CategoryInfo := fun c =>
  if c = "r1" then { menu := some "a,b" }
  else if c = "r2" then { mood := some "c" }
  else {}

/-- Extractor fixture returning menu "a" for every review. -/
def extractMenuA : String → CategoryInfo := fun _ => { menu := some "a" }

/-- Extractor fixture for the spec's dedup example: menu
"한식,  한식 , 일식" for every review. -/
def extractKorean : String → CategoryInfo := fun _ =>
  { menu := some "한식,  한식 , 일식" }

/-- Embedding fixture that fails exactly on the token "b". -/
def embedFailB : String → Except Unit Vec := fun t =>
  if t = "b" then .error () else .ok [1]

/-- Total embedding fixture with a constant vector. -/
def constVec : String → Vec := fun _ => [1]

/-- Scorer fixture (tie-break): query embedding per category value. -/
def emTie : String → Vec := fun t => if t = "c" then [10] else [20]

/-- Scorer fixture (tie-break): cosine distances making place 2 score
`0.4` on companion and place 1 score `0.4` on menu. -/
def distTie : Vec → Vec → ℚ := fun q v =>
  if q = [10] && v = [1] then 6/5
  else if q = [20] && v = [2] then 1
  else 2

/-- Scorer fixture (tie-break): one companion value for place 2, one menu
value for place 1. -/
def storeTie : List PlaceEmbedding :=
  [⟨2, .companion, "x", [1]⟩, ⟨1, .menu, "y", [2]⟩]

/-- Scorer fixture (tie-break): the two place rows. -/
def placesTie : List Place :=
  [⟨1, "p1", "c1", "addr1", 0, 0⟩, ⟨2, "p2", "c2", "addr2", 0, 0⟩]

/-- Scorer fixture (tie-break): companion and menu both queried. -/
def catsTie : CategoryInfo := { companion := some "c", menu := some "m" }

/-- Scorer fixture (single place): query embedding. -/
def emOne : String → Vec := fun _ => [10]

/-- Scorer fixture (single place): distance 1, similarity 1/2. -/
def distOne : Vec → Vec → ℚ := fun q v => if q = [10] && v = [1] then 1 else 2

/-- Scorer fixture (single place): one companion row for place 1. -/
def storeOne : List PlaceEmbedding := [⟨1, .companion, "x", [1]⟩]

/-- Scorer fixture (single place): the place row. -/
def placesOne : List Place := [⟨1, "p1", "c1", "addr1", 0, 0⟩]

/-- Scorer fixture (single place): companion-only query. -/
def catsOne : CategoryInfo := { companion := some "c" }

/-- Scorer fixture (weighted ranking): embeddings of the spec's example
query values 친구 and 카페. -/
def emW : String → Vec := fun t => if t = "친구" then [10] else [20]

/-- Scorer fixture (weighted ranking): distances giving place 1 the
similarities 0.9 (companion) and 0.5 (menu), and place 2 the similarities
0.3 (companion) and 0.9 (menu). -/
def distW : Vec → Vec → ℚ := fun q v =>
  if q = [10] && v = [1] then 1/5
  else if q = [10] && v = [3] then 7/5
  else if q = [20] && v = [2] then 1
  else if q = [20] && v = [4] then 1/5
  else 2

/-- Scorer fixture (weighted ranking): companion and menu values for the
places 1 (= A) and 2 (= B). -/
def storeW : List PlaceEmbedding :=
  [⟨1, .companion, "a1", [1]⟩, ⟨1, .menu, "a2", [2]⟩,
   ⟨2, .companion, "b1", [3]⟩, ⟨2, .menu, "b2", [4]⟩]

/-- Scorer fixture (weighted ranking): the two place rows. -/
def placesW : List Place :=
  [⟨1, "A", "c1", "addr1", 0, 0⟩, ⟨2, "B", "c2", "addr2", 0, 0⟩]

/-- Scorer fixture (weighted ranking): the spec's example query. -/
def catsW : CategoryInfo := { companion := some "친구", menu := some "카페" }

/-! ## Helper lemmas: score accumulation -/

theorem lookupScore_nil (pid : Int) : lookupScore [] pid = 0 := rfl

theorem lookupScore_cons (e : Int × ℚ) (m : List (Int × ℚ)) (pid : Int) :
    lookupScore (e :: m) pid = if e.1 = pid then e.2 else lookupScore m pid := by
  by_cases h : e.1 = pid <;> simp [lookupScore, List.find?_cons, h]

theorem lookupScore_map_add (pid : Int) (w : ℚ) :
    ∀ (m : List (Int × ℚ)), m.any (fun z => z.1 = pid) = true →
      lookupScore (m.map fun e => if e.1 = pid then (e.1, e.2 + w) else e) pid
        = lookupScore m pid + w := by
  intro m
  induction m with
  | nil => intro h; simp at h
  | cons e m ih =>
      intro h
      by_cases he : e.1 = pid
      · simp [he, lookupScore_cons]
      · have h' : m.any (fun z => z.1 = pid) = true := by
          simpa [List.any_cons, he] using h
        simp [he, lookupScore_cons, ih h']

theorem lookupScore_absent (pid : Int) :
    ∀ (m : List (Int × ℚ)), m.any (fun z => z.1 = pid) = false →
      lookupScore m pid = 0 := by
  intro m
  induction m with
  | nil => intro _; rfl
  | cons e m ih =>
      intro h
      rcases (by simpa [List.any_cons] using h : ¬e.1 = pid ∧
        m.any (fun z => z.1 = pid) = false) with ⟨he, hm⟩
      simp [lookupScore_cons, he, ih hm]

theorem lookupScore_append_single (pid : Int) (w : ℚ) :
    ∀ (m : List (Int × ℚ)),
      lookupScore (m ++ [(pid, w)]) pid
        = if m.any (fun z => z.1 = pid) = true then lookupScore m pid else w := by
  intro m
  induction m with
  | nil => simp [lookupScore_cons]
  | cons e m ih =>
      by_cases he : e.1 = pid
      · simp [List.cons_append, lookupScore_cons, he]
      · rw [List.cons_append, lookupScore_cons, if_neg he, ih]
        have harr : (e :: m).any (fun z => z.1 = pid) = m.any (fun z => z.1 = pid) := by
          simp [List.any_cons, he]
        rw [harr]
        by_cases hm : (m.any fun z => z.1 = pid) = true
        · rw [if_pos hm, if_pos hm, lookupScore_cons, if_neg he]
        · rw [if_neg hm, if_neg hm]

theorem lookupScore_addScore_self (m : List (Int × ℚ)) (pid : Int) (w : ℚ) :
    lookupScore (addScore m pid w) pid = lookupScore m pid + w := by
  by_cases h : m.any (fun z => z.1 = pid) = true
  · simp [addScore, h, lookupScore_map_add pid w m h]
  · have h0 : m.any (fun z => z.1 = pid) = false := by
      cases hb : m.any (fun z => z.1 = pid)
      · rfl
      · exact absurd hb h
    simp [addScore, h, lookupScore_append_single, h0, lookupScore_absent pid m h0]

theorem lookupScore_addScore_other (pid pid' : Int) (w : ℚ) (h : pid' ≠ pid) :
    ∀ (m : List (Int × ℚ)),
      lookupScore (addScore m pid w) pid' = lookupScore m pid' := by
  have hpp : ¬pid = pid' := fun hc => h hc.symm
  have key : ∀ (m : List (Int × ℚ)),
      lookupScore (m.map fun e => if e.1 = pid then (e.1, e.2 + w) else e) pid'
        = lookupScore m pid' := by
    intro m
    induction m with
    | nil => rfl
    | cons e m ih =>
        by_cases he : e.1 = pid
        · have he' : ¬e.1 = pid' := fun hc => hpp (he ▸ hc)
          rw [List.map_cons, if_pos he, lookupScore_cons, lookupScore_cons,
            if_neg he', if_neg (by simpa [he] using he'), ih]
        · rw [List.map_cons, if_neg he, lookupScore_cons, lookupScore_cons, ih]
  have key2 : ∀ (m : List (Int × ℚ)),
      lookupScore (m ++ [(pid, w)]) pid' = lookupScore m pid' := by
    intro m
    induction m with
    | nil =>
        show lookupScore [(pid, w)] pid' = lookupScore [] pid'
        rw [lookupScore_cons, if_neg hpp]
    | cons e m ih =>
        by_cases he : e.1 = pid' <;>
          rw [List.cons_append, lookupScore_cons, lookupScore_cons, ih]
  intro m
  unfold addScore
  split
  · exact key m
  · exact key2 m

theorem lookupScore_foldl_addScore (f : Int × ℚ → ℚ) (pid : Int) :
    ∀ (rows : List (Int × ℚ)) (m : List (Int × ℚ)),
      lookupScore (rows.foldl (fun m' r => addScore m' r.1 (f r)) m) pid
        = lookupScore m pid + ((rows.filter (fun r => r.1 = pid)).map f).sum := by
  intro rows
  induction rows with
  | nil => intro m; simp
  | cons r rows ih =>
      intro m
      by_cases hr : r.1 = pid
      · subst hr
        simp only [List.foldl_cons, ih, List.filter_cons]
        rw [lookupScore_addScore_self m r.1 (f r)]
        simp [add_assoc]
      · simp only [List.foldl_cons, ih, List.filter_cons]
        rw [lookupScore_addScore_other r.1 pid (f r) (fun hc => hr hc.symm) m]
        simp [hr]

theorem lookupScore_scoreStep (em : String → Vec) (d : Vec → Vec → ℚ)
    (store : List PlaceEmbedding) (cats : CategoryInfo) (L : Nat) (pid : Int)
    (m : List (Int × ℚ)) (key : CatKey) :
    lookupScore (scoreStep em d store cats L m key) pid
      = lookupScore m pid + categoryContribution em d store cats L key pid := by
  unfold scoreStep categoryContribution
  cases h : cats.get key with
  | none => simp
  | some v =>
      by_cases hv : v = ""
      · simp [hv]
      · simp only [hv, if_neg]
        exact lookupScore_foldl_addScore _ pid _ m

theorem lookupScore_foldl_scoreStep (em : String → Vec) (d : Vec → Vec → ℚ)
    (store : List PlaceEmbedding) (cats : CategoryInfo) (L : Nat) (pid : Int) :
    ∀ (ks : List CatKey) (m : List (Int × ℚ)),
      lookupScore (ks.foldl (scoreStep em d store cats L) m) pid
        = lookupScore m pid
          + (ks.map fun k => categoryContribution em d store cats L k pid).sum := by
  intro ks
  induction ks with
  | nil => intro m; simp
  | cons k ks ih =>
      intro m
      simp only [List.foldl_cons, ih, lookupScore_scoreStep, List.map_cons,
        List.sum_cons, add_assoc]

/-! ## Helper lemmas: candidate lists and sorting -/

theorem dedupFirst_nodup_aux (l : List Int) :
    ∀ acc : List Int, acc.Nodup →
      (l.foldl (fun acc x => if acc.any (fun y => y = x) then acc else acc ++ [x])
          acc).Nodup := by
  induction l with
  | nil => intro acc h; exact h
  | cons x l ih =>
      intro acc h
      rw [List.foldl_cons]
      cases hx : acc.any (fun y => y = x) with
      | true => rw [if_pos rfl]; exact ih acc h
      | false =>
          rw [if_neg Bool.false_ne_true]
          have hx' : x ∉ acc := by
            intro hc
            have hone : acc.any (fun y => y = x) = true := by
              simp only [List.any_eq_true, decide_eq_true_eq]
              exact ⟨x, hc, rfl⟩
            rw [hx] at hone
            cases hone
          exact ih (acc ++ [x]) (by simp [List.nodup_append, h, hx'])

theorem dedupFirst_nodup (l : List Int) : (dedupFirst l).Nodup :=
  dedupFirst_nodup_aux l [] List.nodup_nil

theorem insertAsc_perm (x : Int × ℚ) :
    ∀ l : List (Int × ℚ), List.Perm (insertAsc x l) (x :: l) := by
  intro l
  induction l with
  | nil => simp [insertAsc]
  | cons y ys ih =>
      unfold insertAsc
      by_cases hc : x.2 ≤ y.2
      · simp [hc]
      · simp only [hc, if_neg, not_false_iff]
        exact (List.Perm.cons y ih).trans (List.Perm.swap x y ys)

theorem sortAsc_perm (l : List (Int × ℚ)) : List.Perm (sortAsc l) l := by
  induction l with
  | nil => simp [sortAsc]
  | cons x xs ih =>
      have : sortAsc (x :: xs) = insertAsc x (sortAsc xs) := rfl
      rw [this]
      exact (insertAsc_perm x (sortAsc xs)).trans (List.Perm.cons x ih)

theorem similar_places_nodup_fst (d : Vec → Vec → ℚ) (store : List PlaceEmbedding)
    (cat : CatKey) (qv : Vec) (lim : Nat) :
    ((similar_places d store cat qv lim).map Prod.fst).Nodup := by
  unfold similar_places
  set rows := store.filter fun e => e.category = cat with hrows
  set pids := dedupFirst (rows.map (·.place_id)) with hpids
  set grouped := pids.map fun p =>
    (p, minRat (((rows.filter fun e => e.place_id = p).map (·.embedding)).map (d qv)))
    with hg
  have hfst : grouped.map Prod.fst = pids := by
    rw [hg, List.map_map]
    exact List.map_id'' (fun x => rfl) pids
  have hnodup : (grouped.map Prod.fst).Nodup := by
    rw [hfst]; exact dedupFirst_nodup _
  have hperm : List.Perm ((sortAsc grouped).map Prod.fst) (grouped.map Prod.fst) :=
    (sortAsc_perm grouped).map Prod.fst
  have hnodup2 : ((sortAsc grouped).map Prod.fst).Nodup :=
    hperm.nodup_iff.mpr hnodup
  rw [List.map_take]
  exact hnodup2.sublist (List.take_sublist lim _)

theorem insertDesc_perm (x : Int × ℚ) :
    ∀ l : List (Int × ℚ), List.Perm (insertDesc x l) (x :: l) := by
  intro l
  induction l with
  | nil => simp [insertDesc]
  | cons y ys ih =>
      unfold insertDesc
      by_cases hc : y.2 ≤ x.2
      · rw [if_pos hc]
      · rw [if_neg hc]
        exact (List.Perm.cons y ih).trans (List.Perm.swap x y ys)

theorem mem_insertDesc {x y : Int × ℚ} {l : List (Int × ℚ)}
    (h : y ∈ insertDesc x l) : y = x ∨ y ∈ l := by
  have := (insertDesc_perm x l).mem_iff.mp h
  simpa using this

theorem insertDesc_sorted (x : Int × ℚ) :
    ∀ l : List (Int × ℚ), List.Sorted (fun a b : Int × ℚ => b.2 ≤ a.2) l →
      List.Sorted (fun a b : Int × ℚ => b.2 ≤ a.2) (insertDesc x l) := by
  intro l
  induction l with
  | nil => intro _; simp [insertDesc]
  | cons y ys ih =>
      intro hs
      rw [List.sorted_cons] at hs
      obtain ⟨hy, hys⟩ := hs
      unfold insertDesc
      by_cases hc : y.2 ≤ x.2
      · rw [if_pos hc, List.sorted_cons]
        refine ⟨?_, List.sorted_cons.mpr ⟨hy, hys⟩⟩
        intro b hb
        rcases List.mem_cons.mp hb with rfl | hb
        · exact hc
        · exact le_trans (hy b hb) hc
      · rw [if_neg hc, List.sorted_cons]
        refine ⟨?_, ih hys⟩
        intro b hb
        rcases mem_insertDesc hb with rfl | hb
        · exact le_of_lt (lt_of_not_le hc)
        · exact hy b hb

theorem insertDesc_filter (x : Int × ℚ) (q : ℚ) :
    ∀ l : List (Int × ℚ),
      (insertDesc x l).filter (fun e => e.2 = q)
        = (x :: l).filter (fun e => e.2 = q) := by
  intro l
  induction l with
  | nil => rfl
  | cons y ys ih =>
      unfold insertDesc
      by_cases hc : y.2 ≤ x.2
      · rw [if_pos hc]
      · rw [if_neg hc]
        have hxy : x.2 < y.2 := lt_of_not_le hc
        by_cases hyq : y.2 = q
        · have hxq : ¬x.2 = q := fun hxq => absurd (hxq.trans hyq.symm) (ne_of_lt hxy)
          simp [List.filter_cons, hyq, hxq, ih]
        · by_cases hxq : x.2 = q <;> simp [List.filter_cons, hyq, hxq, ih]

theorem sortDesc_cons (x : Int × ℚ) (l : List (Int × ℚ)) :
    sortDesc (x :: l) = insertDesc x (sortDesc l) := rfl

theorem sortDesc_perm (l : List (Int × ℚ)) : List.Perm (sortDesc l) l := by
  induction l with
  | nil => simp [sortDesc]
  | cons x xs ih =>
      rw [sortDesc_cons]
      exact (insertDesc_perm x (sortDesc xs)).trans (List.Perm.cons x ih)

theorem sortDesc_sorted (l : List (Int × ℚ)) :
    List.Sorted (fun a b : Int × ℚ => b.2 ≤ a.2) (sortDesc l) := by
  induction l with
  | nil => simp [sortDesc]
  | cons x xs ih =>
      rw [sortDesc_cons]
      exact insertDesc_sorted x (sortDesc xs) ih

theorem sortDesc_filter (l : List (Int × ℚ)) (q : ℚ) :
    (sortDesc l).filter (fun e => e.2 = q) = l.filter (fun e => e.2 = q) := by
  induction l with
  | nil => rfl
  | cons x xs ih =>
      rw [sortDesc_cons, insertDesc_filter, List.filter_cons, List.filter_cons, ih]

theorem foldl_guard_append {α β : Type} (g : α → β) (pred : α → Prop)
    [DecidablePred pred] :
    ∀ (l : List α) (acc : List β) (x : β),
      (x ∈ l.foldl (fun acc p => if pred p then acc ++ [g p] else acc) acc) ↔
        x ∈ acc ∨ ∃ p ∈ l, pred p ∧ x = g p := by
  intro l
  induction l with
  | nil => intro acc x; simp
  | cons p l ih =>
      intro acc x
      rw [List.foldl_cons]
      by_cases hp : pred p
      · rw [if_pos hp, ih]
        simp only [List.mem_append, List.mem_singleton, List.mem_cons,
          List.not_mem_nil, or_false]
        constructor
        · rintro (⟨h | h⟩ | ⟨p', hp', hpred, hx⟩)
          · exact Or.inl h
          · exact Or.inr ⟨p, Or.inl rfl, hp, h⟩
          · exact Or.inr ⟨p', Or.inr hp', hpred, hx⟩
        · rintro (h | ⟨p', hp' | hp', hpred, hx⟩)
          · exact Or.inl (Or.inl h)
          · exact Or.inl (Or.inr (hp' ▸ hx))
          · exact Or.inr ⟨p', hp', hpred, hx⟩
      · rw [if_neg hp, ih]
        simp only [List.mem_cons]
        constructor
        · rintro (h | ⟨p', hp', hpred, hx⟩)
          · exact Or.inl h
          · exact Or.inr ⟨p', Or.inr hp', hpred, hx⟩
        · rintro (h | ⟨p', hp' | hp', hpred, hx⟩)
          · exact Or.inl h
          · exact absurd (hp' ▸ hpred) hp
          · exact Or.inr ⟨p', hp', hpred, hx⟩

/-! ## Helper lemmas: ingestion -/

theorem visible_commit (s : DbSession) : s.commit.visible = s.visible := by
  simp [DbSession.commit, DbSession.visible]

theorem visible_extend (s : DbSession) (l : List PlaceEmbedding) :
    (DbSession.visible ⟨s.committed, s.pending ++ l⟩) = s.visible ++ l := by
  simp [DbSession.visible, List.append_assoc]

theorem existsTriple_iff (s : DbSession) (pid : Int) (k : CatKey) (t : String) :
    existsTriple s pid k t = true ↔ (pid, k, t) ∈ s.visible.map tripleKey := by
  simp only [existsTriple, List.any_eq_true, Bool.and_eq_true, decide_eq_true_eq,
    List.mem_map]
  constructor
  · rintro ⟨e, he, ⟨h1, h2⟩, h3⟩
    exact ⟨e, he, by rw [tripleKey, h1, h2, h3]⟩
  · rintro ⟨e, he, heq⟩
    rw [tripleKey] at heq
    have h' : e.place_id = pid ∧ e.category = k ∧ e.value_text = t := by
      simpa [Prod.ext_iff] using heq
    exact ⟨e, he, ⟨h'.1, h'.2.1⟩, h'.2.2⟩

theorem existsTriple_commit (s : DbSession) (pid : Int) (k : CatKey) (t : String) :
    existsTriple s.commit pid k t = existsTriple s pid k t := by
  unfold existsTriple
  rw [visible_commit]

theorem existsTriple_mono {s : DbSession} {l : List PlaceEmbedding} {pid : Int}
    {k : CatKey} {t : String} (h : existsTriple s pid k t = true) :
    existsTriple ⟨s.committed, s.pending ++ l⟩ pid k t = true := by
  rw [existsTriple_iff] at h ⊢
  rw [visible_extend, List.map_append]
  exact List.mem_append_left _ h

theorem ingestToken_failed_true (g : String → Except Unit Vec) (pid : Int)
    (k : CatKey) (st : IngestState) (t : String) (h : st.failed = true) :
    ingestToken g pid k st t = st := by
  unfold ingestToken
  rw [if_pos h]

theorem ingestToken_failed_of {g : String → Except Unit Vec} {pid : Int}
    {k : CatKey} {st : IngestState} {t : String}
    (h : (ingestToken g pid k st t).failed = false) : st.failed = false := by
  cases hf : st.failed
  · rfl
  · rw [ingestToken_failed_true g pid k st t hf, hf] at h
    cases h

theorem foldl_tokens_failed_of (g : String → Except Unit Vec) (pid : Int)
    (k : CatKey) :
    ∀ (toks : List String) (st : IngestState),
      (toks.foldl (ingestToken g pid k) st).failed = false → st.failed = false := by
  intro toks
  induction toks with
  | nil => intro st h; exact h
  | cons t0 ts ih =>
      intro st h
      rw [List.foldl_cons] at h
      exact ingestToken_failed_of (ih _ h)

theorem ingestToken_sess (g : String → Except Unit Vec) (pid : Int)
    (k : CatKey) (st : IngestState) (t : String) :
    ∃ l, (ingestToken g pid k st t).sess
      = ⟨st.sess.committed, st.sess.pending ++ l⟩ := by
  unfold ingestToken
  by_cases hf : st.failed = true
  · rw [if_pos hf]
    exact ⟨[], by rw [List.append_nil]⟩
  · rw [if_neg hf]
    by_cases hex : existsTriple st.sess pid k t = true
    · rw [if_pos hex]
      exact ⟨[], by rw [List.append_nil]⟩
    · rw [if_neg hex]
      cases hgt : g t with
      | error e => exact ⟨[], by rw [List.append_nil]⟩
      | ok v => exact ⟨[⟨pid, k, t, v⟩], rfl⟩

theorem foldl_tokens_sess (g : String → Except Unit Vec) (pid : Int)
    (k : CatKey) :
    ∀ (toks : List String) (st : IngestState),
      ∃ l, (toks.foldl (ingestToken g pid k) st).sess
        = ⟨st.sess.committed, st.sess.pending ++ l⟩ := by
  intro toks
  induction toks with
  | nil => intro st; exact ⟨[], by simp⟩
  | cons t0 ts ih =>
      intro st
      rw [List.foldl_cons]
      obtain ⟨l1, h1⟩ := ingestToken_sess g pid k st t0
      obtain ⟨l2, h2⟩ := ih (ingestToken g pid k st t0)
      refine ⟨l1 ++ l2, ?_⟩
      rw [h2, h1, List.append_assoc]

theorem ingestCategory_eq_fold (g : String → Except Unit Vec) (pid : Int)
    (cats : CategoryInfo) (st : IngestState) (k : CatKey) :
    ingestCategory g pid cats st k
      = (tokensFor cats k).foldl (ingestToken g pid k) st := by
  unfold ingestCategory tokensFor
  cases cats.get k with
  | none => rfl
  | some v => by_cases hv : v = "" <;> simp [hv]

theorem foldl_keys_sess (g : String → Except Unit Vec) (pid : Int)
    (cats : CategoryInfo) :
    ∀ (ks : List CatKey) (st : IngestState),
      ∃ l, (ks.foldl (ingestCategory g pid cats) st).sess
        = ⟨st.sess.committed, st.sess.pending ++ l⟩ := by
  intro ks
  induction ks with
  | nil => intro st; exact ⟨[], by simp⟩
  | cons k0 ks ih =>
      intro st
      rw [List.foldl_cons, ingestCategory_eq_fold]
      obtain ⟨l1, h1⟩ := foldl_tokens_sess g pid k0 (tokensFor cats k0) st
      obtain ⟨l2, h2⟩ := ih ((tokensFor cats k0).foldl (ingestToken g pid k0) st)
      refine ⟨l1 ++ l2, ?_⟩
      rw [h2, h1, List.append_assoc]

theorem foldl_keys_failed_of (g : String → Except Unit Vec) (pid : Int)
    (cats : CategoryInfo) :
    ∀ (ks : List CatKey) (st : IngestState),
      (ks.foldl (ingestCategory g pid cats) st).failed = false →
      st.failed = false := by
  intro ks
  induction ks with
  | nil => intro st h; exact h
  | cons k0 ks ih =>
      intro st h
      rw [List.foldl_cons] at h
      have := ih _ h
      rw [ingestCategory_eq_fold] at this
      exact foldl_tokens_failed_of g pid k0 _ st this

theorem ingestToken_present (g : String → Except Unit Vec) (pid : Int)
    (k : CatKey) (st : IngestState) (t : String) (hf : st.failed = false)
    (hsucc : (ingestToken g pid k st t).failed = false) :
    existsTriple (ingestToken g pid k st t).sess pid k t = true := by
  unfold ingestToken at hsucc ⊢
  rw [if_neg (by simp [hf])] at hsucc ⊢
  by_cases hex : existsTriple st.sess pid k t = true
  · rw [if_pos hex] at hsucc ⊢
    exact hex
  · rw [if_neg hex] at hsucc ⊢
    cases hgt : g t with
    | error e => rw [hgt] at hsucc; simp at hsucc
    | ok v =>
        show existsTriple
          ⟨st.sess.committed, st.sess.pending ++ [⟨pid, k, t, v⟩]⟩ pid k t = true
        rw [existsTriple_iff, visible_extend, List.map_append]
        apply List.mem_append_right
        simp [tripleKey]

theorem foldl_tokens_present (g : String → Except Unit Vec) (pid : Int)
    (k : CatKey) :
    ∀ (toks : List String) (st : IngestState),
      (toks.foldl (ingestToken g pid k) st).failed = false →
      ∀ t ∈ toks,
        existsTriple (toks.foldl (ingestToken g pid k) st).sess pid k t = true := by
  intro toks
  induction toks with
  | nil => intro st _ t ht; cases ht
  | cons t0 ts ih =>
      intro st h t ht
      rw [List.foldl_cons] at h ⊢
      rcases List.mem_cons.mp ht with rfl | hts
      · have h1 : (ingestToken g pid k st t).failed = false :=
          foldl_tokens_failed_of g pid k ts _ h
        have h0 : st.failed = false := ingestToken_failed_of h1
        have hpres := ingestToken_present g pid k st t h0 h1
        obtain ⟨l, hl⟩ := foldl_tokens_sess g pid k ts (ingestToken g pid k st t)
        rw [hl]
        exact existsTriple_mono hpres
      · exact ih (ingestToken g pid k st t0) h t hts

theorem foldl_keys_present (g : String → Except Unit Vec) (pid : Int)
    (cats : CategoryInfo) :
    ∀ (ks : List CatKey) (st : IngestState),
      (ks.foldl (ingestCategory g pid cats) st).failed = false →
      ∀ k ∈ ks, ∀ t ∈ tokensFor cats k,
        existsTriple ((ks.foldl (ingestCategory g pid cats) st).sess) pid k t
          = true := by
  intro ks
  induction ks with
  | nil => intro st _ k hk; cases hk
  | cons k0 ks ih =>
      intro st h k hk t ht
      rw [List.foldl_cons] at h ⊢
      rcases List.mem_cons.mp hk with rfl | hks
      · have h1 : (ingestCategory g pid cats st k).failed = false := by
          apply foldl_keys_failed_of g pid cats ks _ h
        have hpres : existsTriple (ingestCategory g pid cats st k).sess pid k t
            = true := by
          rw [ingestCategory_eq_fold] at h1 ⊢
          exact foldl_tokens_present g pid k _ st h1 t ht
        obtain ⟨l, hl⟩ := foldl_keys_sess g pid cats ks (ingestCategory g pid cats st k)
        rw [hl]
        exact existsTriple_mono hpres
      · exact ih (ingestCategory g pid cats st k0) h k hks t ht

theorem foldl_tokens_skip (g : String → Except Unit Vec) (pid : Int)
    (k : CatKey) (s : DbSession) :
    ∀ (toks : List String), (∀ t ∈ toks, existsTriple s pid k t = true) →
      ∀ (i sk : Nat),
        toks.foldl (ingestToken g pid k) ⟨s, i, sk, false⟩
          = ⟨s, i, sk + toks.length, false⟩ := by
  intro toks
  induction toks with
  | nil => intro _ i sk; simp
  | cons t0 ts ih =>
      intro hall i sk
      rw [List.foldl_cons]
      have h0 : existsTriple s pid k t0 = true := hall t0 (List.mem_cons_self _ _)
      have hstep : ingestToken g pid k ⟨s, i, sk, false⟩ t0 = ⟨s, i, sk + 1, false⟩ := by
        unfold ingestToken
        rw [if_neg (by simp)]
        rw [if_pos h0]
      rw [hstep, ih (fun t ht => hall t (List.mem_cons_of_mem _ ht)) i (sk + 1)]
      have : sk + 1 + ts.length = sk + (t0 :: ts).length := by
        rw [List.length_cons]; omega
      rw [this]

theorem foldl_keys_skip (g : String → Except Unit Vec) (pid : Int)
    (cats : CategoryInfo) (s : DbSession)
    (hall : ∀ k, ∀ t ∈ tokensFor cats k, existsTriple s pid k t = true) :
    ∀ (ks : List CatKey) (i sk : Nat),
      ks.foldl (ingestCategory g pid cats) ⟨s, i, sk, false⟩
        = ⟨s, i, sk + (ks.map fun k => (tokensFor cats k).length).sum, false⟩ := by
  intro ks
  induction ks with
  | nil => intro i sk; simp
  | cons k0 ks ih =>
      intro i sk
      rw [List.foldl_cons, ingestCategory_eq_fold,
        foldl_tokens_skip g pid k0 s (tokensFor cats k0) (hall k0) i sk, ih i _]
      have : sk + (tokensFor cats k0).length
            + (ks.map fun k => (tokensFor cats k).length).sum
          = sk + ((k0 :: ks).map fun k => (tokensFor cats k).length).sum := by
        rw [List.map_cons, List.sum_cons]; omega
      rw [this]

theorem ingestRun_allPresent (g : String → Except Unit Vec) (s : DbSession)
    (pid : Int) (cats : CategoryInfo)
    (hall : ∀ k, ∀ t ∈ tokensFor cats k, existsTriple s pid k t = true) :
    ingestRun g s pid cats = ⟨s.commit, 0, totalTokens cats, false⟩ := by
  unfold ingestRun totalTokens
  rw [foldl_keys_skip g pid cats s hall CATEGORY_KEYS 0 0]
  simp

/-! ## Helper lemmas: ingestion with a total embedding function -/

theorem totalEmbed_token_step (f : String → Vec) (pid : Int) (k : CatKey)
    (st : IngestState) (t : String) (hf : st.failed = false) :
    (ingestToken (totalEmbed f) pid k st t).failed = false ∧
    (ingestToken (totalEmbed f) pid k st t).inserted
        + (ingestToken (totalEmbed f) pid k st t).skipped
      = st.inserted + st.skipped + 1 ∧
    (ingestToken (totalEmbed f) pid k st t).sess.committed = st.sess.committed ∧
    (ingestToken (totalEmbed f) pid k st t).sess.pending.length + st.inserted
      = st.sess.pending.length + (ingestToken (totalEmbed f) pid k st t).inserted := by
  unfold ingestToken
  rw [if_neg (by simp [hf])]
  by_cases hex : existsTriple st.sess pid k t = true
  · rw [if_pos hex]
    refine ⟨hf, ?_, rfl, ?_⟩
    · show st.inserted + (st.skipped + 1) = st.inserted + st.skipped + 1
      omega
    · show st.sess.pending.length + st.inserted
        = st.sess.pending.length + st.inserted
      rfl
  · rw [if_neg hex]
    refine ⟨hf, ?_, rfl, ?_⟩
    · show st.inserted + 1 + st.skipped = st.inserted + st.skipped + 1
      omega
    · show (st.sess.pending ++ [(⟨pid, k, t, f t⟩ : PlaceEmbedding)]).length
          + st.inserted
        = st.sess.pending.length + (st.inserted + 1)
      simp only [List.length_append, List.length_cons, List.length_nil]
      omega

theorem totalEmbed_tokens_fold (f : String → Vec) (pid : Int) (k : CatKey) :
    ∀ (toks : List String) (st : IngestState), st.failed = false →
      (toks.foldl (ingestToken (totalEmbed f) pid k) st).failed = false ∧
      (toks.foldl (ingestToken (totalEmbed f) pid k) st).inserted
          + (toks.foldl (ingestToken (totalEmbed f) pid k) st).skipped
        = st.inserted + st.skipped + toks.length ∧
      (toks.foldl (ingestToken (totalEmbed f) pid k) st).sess.committed
        = st.sess.committed ∧
      (toks.foldl (ingestToken (totalEmbed f) pid k) st).sess.pending.length
          + st.inserted
        = st.sess.pending.length
          + (toks.foldl (ingestToken (totalEmbed f) pid k) st).inserted := by
  intro toks
  induction toks with
  | nil => intro st hf; exact ⟨hf, by simp, rfl, by simp⟩
  | cons t0 ts ih =>
      intro st hf
      obtain ⟨s1, s2, s3, s4⟩ := totalEmbed_token_step f pid k st t0 hf
      obtain ⟨r1, r2, r3, r4⟩ := ih (ingestToken (totalEmbed f) pid k st t0) s1
      rw [List.foldl_cons]
      refine ⟨r1, ?_, r3.trans s3, ?_⟩
      · rw [r2, List.length_cons]; omega
      · omega

theorem totalEmbed_keys_fold (f : String → Vec) (pid : Int)
    (cats : CategoryInfo) :
    ∀ (ks : List CatKey) (st : IngestState), st.failed = false →
      (ks.foldl (ingestCategory (totalEmbed f) pid cats) st).failed = false ∧
      (ks.foldl (ingestCategory (totalEmbed f) pid cats) st).inserted
          + (ks.foldl (ingestCategory (totalEmbed f) pid cats) st).skipped
        = st.inserted + st.skipped
          + (ks.map fun k => (tokensFor cats k).length).sum ∧
      (ks.foldl (ingestCategory (totalEmbed f) pid cats) st).sess.committed
        = st.sess.committed ∧
      (ks.foldl (ingestCategory (totalEmbed f) pid cats) st).sess.pending.length
          + st.inserted
        = st.sess.pending.length
          + (ks.foldl (ingestCategory (totalEmbed f) pid cats) st).inserted := by
  intro ks
  induction ks with
  | nil => intro st hf; exact ⟨hf, by simp, rfl, by simp⟩
  | cons k0 ks ih =>
      intro st hf
      have hcat := totalEmbed_tokens_fold f pid k0 (tokensFor cats k0) st hf
      rw [← ingestCategory_eq_fold] at hcat
      obtain ⟨s1, s2, s3, s4⟩ := hcat
      obtain ⟨r1, r2, r3, r4⟩ := ih (ingestCategory (totalEmbed f) pid cats st k0) s1
      rw [List.foldl_cons]
      refine ⟨r1, ?_, r3.trans s3, ?_⟩
      · rw [r2, s2, List.map_cons, List.sum_cons]; omega
      · omega

theorem ingestRun_eq_of_not_failed (g : String → Except Unit Vec)
    (s : DbSession) (pid : Int) (cats : CategoryInfo)
    (h : (CATEGORY_KEYS.foldl (ingestCategory g pid cats)
        ⟨s, 0, 0, false⟩).failed = false) :
    ingestRun g s pid cats
      = ⟨(CATEGORY_KEYS.foldl (ingestCategory g pid cats)
            ⟨s, 0, 0, false⟩).sess.commit,
         (CATEGORY_KEYS.foldl (ingestCategory g pid cats)
            ⟨s, 0, 0, false⟩).inserted,
         (CATEGORY_KEYS.foldl (ingestCategory g pid cats)
            ⟨s, 0, 0, false⟩).skipped,
         false⟩ := by
  unfold ingestRun
  rw [if_neg (by simp [h])]
  cases hst : CATEGORY_KEYS.foldl (ingestCategory g pid cats) ⟨s, 0, 0, false⟩
  rw [hst] at h
  simp_all [DbSession.commit]

theorem commit_of_pending_nil (s : DbSession) (h : s.pending = []) :
    s.commit = s := by
  cases s
  simp_all [DbSession.commit]

theorem catKey_mem (k : CatKey) : k ∈ CATEGORY_KEYS := by
  cases k <;> simp [CATEGORY_KEYS]

/-! ## Helper lemmas: store-level uniqueness -/

theorem uq_token (g : String → Except Unit Vec) (pid : Int) (k : CatKey)
    (st : IngestState) (t : String)
    (h : uq_review_category_value st.sess.visible) :
    uq_review_category_value (ingestToken g pid k st t).sess.visible := by
  unfold ingestToken
  by_cases hf : st.failed = true
  · rw [if_pos hf]; exact h
  · rw [if_neg hf]
    by_cases hex : existsTriple st.sess pid k t = true
    · rw [if_pos hex]; exact h
    · rw [if_neg hex]
      cases hgt : g t with
      | error e => exact h
      | ok v =>
          show uq_review_category_value
            (DbSession.visible
              ⟨st.sess.committed, st.sess.pending ++ [⟨pid, k, t, v⟩]⟩)
          have hnot : (pid, k, t) ∉ st.sess.visible.map tripleKey := by
            intro hc
            exact hex ((existsTriple_iff _ _ _ _).mpr hc)
          unfold uq_review_category_value at h ⊢
          rw [visible_extend, List.map_append]
          simp [List.nodup_append, h, hnot, tripleKey]

theorem uq_tokens_fold (g : String → Except Unit Vec) (pid : Int) (k : CatKey) :
    ∀ (toks : List String) (st : IngestState),
      uq_review_category_value st.sess.visible →
      uq_review_category_value
        ((toks.foldl (ingestToken g pid k) st).sess.visible) := by
  intro toks
  induction toks with
  | nil => intro st h; exact h
  | cons t0 ts ih =>
      intro st h
      rw [List.foldl_cons]
      exact ih _ (uq_token g pid k st t0 h)

theorem uq_keys_fold (g : String → Except Unit Vec) (pid : Int)
    (cats : CategoryInfo) :
    ∀ (ks : List CatKey) (st : IngestState),
      uq_review_category_value st.sess.visible →
      uq_review_category_value
        ((ks.foldl (ingestCategory g pid cats) st).sess.visible) := by
  intro ks
  induction ks with
  | nil => intro st h; exact h
  | cons k0 ks ih =>
      intro st h
      rw [List.foldl_cons]
      refine ih _ ?_
      rw [ingestCategory_eq_fold]
      exact uq_tokens_fold g pid k0 _ st h

theorem uq_run (g : String → Except Unit Vec) (s : DbSession) (pid : Int)
    (cats : CategoryInfo) (h : uq_review_category_value s.visible) :
    uq_review_category_value (ingestRun g s pid cats).sess.visible := by
  have h0 : uq_review_category_value
      ((CATEGORY_KEYS.foldl (ingestCategory g pid cats)
        ⟨s, 0, 0, false⟩).sess.visible) :=
    uq_keys_fold g pid cats CATEGORY_KEYS ⟨s, 0, 0, false⟩ h
  simp only [ingestRun]
  split
  · exact h0
  · show uq_review_category_value
      ((CATEGORY_KEYS.foldl (ingestCategory g pid cats)
        ⟨s, 0, 0, false⟩).sess.commit.visible)
    rw [visible_commit]
    exact h0

theorem uq_refresh (ex : String → CategoryInfo) (g : String → Except Unit Vec)
    (s : DbSession) (pid : Int) (c : String)
    (h : uq_review_category_value s.visible) :
    uq_review_category_value ((refresh_embeddings ex g s pid c).2).visible :=
  uq_run g s pid (ex c) h

theorem uq_runIngests (ex : String → CategoryInfo)
    (g : String → Except Unit Vec) :
    ∀ (calls : List (Int × String)) (s : DbSession),
      uq_review_category_value s.visible →
      uq_review_category_value (runIngests ex g calls s).visible := by
  intro calls
  induction calls with
  | nil => intro s h; exact h
  | cons c cs ih =>
      intro s h
      unfold runIngests at ih ⊢
      rw [List.foldl_cons]
      exact ih _ (uq_refresh ex g s c.1 c.2 h)

/-! ## Claim theorems -/

/-- C1: the claim that a failed ingest call leaves no committed trace is
violated by the code: `refresh_embeddings` has no rollback, so when the
embedding of "b" fails after the row (1, menu, "a") was staged, the call
raises (first conjunct) with the staged row still pending (second
conjunct); the batch caller `generate_embeddings_for_place` catches the
error and continues on the same session, and the next successful call's
commit persists the failed call's row (third conjunct). -/
theorem C1_partial_write_survives :
    (refresh_embeddings extractAB embedFailB ⟨[], []⟩ 1 "r1").1 = .error () ∧
    ((refresh_embeddings extractAB embedFailB ⟨[], []⟩ 1 "r1").2).pending.map tripleKey
      = [(1, .menu, "a")] ∧
    ((generate_embeddings_for_place extractAB embedFailB ⟨[], []⟩ 1
        ["r1", "r2"]).1).committed.map tripleKey
      = [(1, .menu, "a"), (1, .mood, "c")] := by
  refine ⟨by decide, by decide, by decide⟩

/-- C2 (counterexample): with the store already holding (1, menu, "a") and
the extractor yielding menu "a,b" both times, the first call inserts 1 and
skips 1; the second identical call skips 2 — not equal to the first call's
inserted count of 1, refuting the claimed equality. -/
theorem C2_idempotence_counterexample :
    (ingestRun (totalEmbed constVec) ⟨[⟨1, .menu, "a", [1]⟩], []⟩ 1
        (extractAB "r1")).inserted = 1 ∧
    (ingestRun (totalEmbed constVec) ⟨[⟨1, .menu, "a", [1]⟩], []⟩ 1
        (extractAB "r1")).skipped = 1 ∧
    (ingestRun (totalEmbed constVec)
        (ingestRun (totalEmbed constVec) ⟨[⟨1, .menu, "a", [1]⟩], []⟩ 1
          (extractAB "r1")).sess 1 (extractAB "r1")).inserted = 0 ∧
    (ingestRun (totalEmbed constVec)
        (ingestRun (totalEmbed constVec) ⟨[⟨1, .menu, "a", [1]⟩], []⟩ 1
          (extractAB "r1")).sess 1 (extractAB "r1")).skipped = 2 ∧
    (2 : Nat) ≠ 1 := by
  refine ⟨by decide, by decide, by decide, by decide, by decide⟩

/-- C4 (counterexample): `refresh_embeddings` returns the pair
(categories, inserted), not (inserted, skipped): on a store already
holding the only extracted token, the returned pair is
(categories, 0) while the internal skipped counter is 1, so the numeric
component of the return is the inserted count, not the skipped count. -/
theorem C4_return_shape_counterexample :
    (refresh_embeddings extractMenuA (totalEmbed constVec)
        ⟨[⟨1, .menu, "a", [1]⟩], []⟩ 1 "r").1 = .ok (extractMenuA "r", 0) ∧
    (ingestRun (totalEmbed constVec) ⟨[⟨1, .menu, "a", [1]⟩], []⟩ 1
        (extractMenuA "r")).skipped = 1 ∧
    (0 : Nat) ≠ 1 := by
  refine ⟨by decide, by decide, by decide⟩

/-- C5 (counterexample): places 1 and 2 accumulate the same score 2/5, yet
the returned ranking is [2, 1] — the place with the larger id first,
because the stable sort keeps the score-map insertion order (place 2 was
inserted first by the companion pass); the claimed ascending-id tie-break
would give [1, 2]. -/
theorem C5_tie_break_counterexample :
    place_scores emTie distTie storeTie catsTie
        (defaultSettings.recommendation_top_k * 3) = [(2, 2/5), (1, 2/5)] ∧
    (recommend_places emTie distTie storeTie placesTie catsTie none none
        defaultSettings).1.map PlaceOut.id = [2, 1] ∧
    (1 : Int) < 2 := by
  refine ⟨?_, ?_, by norm_num⟩ <;>
    norm_num +decide [recommend_places, effectiveLimit, defaultSettings,
      place_scores, scoreStep, CATEGORY_KEYS, CategoryInfo.get, catsTie,
      similar_places, dedupFirst, minRat, sortAsc, insertAsc, addScore,
      CATEGORY_WEIGHTS, emTie, distTie, storeTie, placesTie, sortDesc,
      insertDesc, lookupScore, min_def, PlaceOut.ofPlace, List.find?,
      Function.comp]

/-- C7: the spec's dedup-normalization example: the extractor value
"한식,  한식 , 일식" splits into the trimmed tokens
[한식, 한식, 일식]; ingesting it into an empty store creates exactly the
two distinct entries (menu, 한식) and (menu, 일식) and returns
inserted = 2 — the repeated token creates no third row. -/
theorem C7_dedup_normalization :
    split_values (some "한식,  한식 , 일식") = ["한식", "한식", "일식"] ∧
    ((refresh_embeddings extractKorean (totalEmbed constVec) ⟨[], []⟩ 7
        "리뷰").2).committed.map tripleKey
      = [(7, .menu, "한식"), (7, .menu, "일식")] ∧
    (refresh_embeddings extractKorean (totalEmbed constVec) ⟨[], []⟩ 7
        "리뷰").1 = .ok ({ menu := some "한식,  한식 , 일식" }, 2) := by
  refine ⟨by decide, by decide, by decide⟩

/-- C3: evaluating `recommend_places` at a store with one matching place:
the internal score map is the non-empty [(1, 1/2)], yet the returned value
is exactly the pair (places, categories) — the raw score map is not part
of the scorer's return value, although both API endpoints unpack three
values (`items, extracted, place_scores = recommend_places(...)`) and read
`place_scores`. -/
theorem C3_score_map_not_returned :
    recommend_places emOne distOne storeOne placesOne catsOne none none
        defaultSettings = ([⟨1, "p1", "c1", "addr1", 0, 0⟩], catsOne) ∧
    place_scores emOne distOne storeOne catsOne
        (defaultSettings.recommendation_top_k * 3) = [(1, 1/2)] := by
  constructor <;>
    norm_num +decide [recommend_places, effectiveLimit, defaultSettings,
      place_scores, scoreStep, CATEGORY_KEYS, CategoryInfo.get, catsOne,
      similar_places, dedupFirst, minRat, sortAsc, insertAsc, addScore,
      CATEGORY_WEIGHTS, emOne, distOne, storeOne, placesOne, sortDesc,
      insertDesc, lookupScore, min_def, PlaceOut.ofPlace, List.find?,
      Function.comp]

/-- C5 (amended): the ranking sort of `recommend_places` orders the score
map by accumulated score descending and is stable: for every score value
the entries carrying it appear in the output in exactly their score-map
(insertion) order, and the output is a permutation of the score map —
ties are broken by insertion order, not by ascending place id. -/
theorem C5_stable_sort_amended :
    ∀ m : List (Int × ℚ),
      List.Sorted (fun a b : Int × ℚ => b.2 ≤ a.2) (sortDesc m) ∧
      (∀ q : ℚ, (sortDesc m).filter (fun e => e.2 = q) = m.filter (fun e => e.2 = q)) ∧
      List.Perm (sortDesc m) m := by
  intro m
  exact ⟨sortDesc_sorted m, fun q => sortDesc_filter m q, sortDesc_perm m⟩

/-- C6: the accumulated score of a place is the sum over the four category
keys of the category's contribution — weight times similarity
`1 - distance/2` for the place's (unique) candidate row, `0` when the
place is absent from that category's candidates; on the spec's example
(companion weight 1.0, menu weight 0.8, A similarities 0.9/0.5,
B similarities 0.3/0.9) the raw scores are A = 1.30 and B = 1.02 and A
ranks above B. -/
theorem C6_weighted_scoring :
    (∀ (em : String → Vec) (d : Vec → Vec → ℚ) (store : List PlaceEmbedding)
        (cats : CategoryInfo) (L : Nat) (pid : Int),
      lookupScore (place_scores em d store cats L) pid
        = (CATEGORY_KEYS.map fun k =>
            categoryContribution em d store cats L k pid).sum) ∧
    (∀ (d : Vec → Vec → ℚ) (store : List PlaceEmbedding) (cat : CatKey)
        (qv : Vec) (lim : Nat),
      ((similar_places d store cat qv lim).map Prod.fst).Nodup) ∧
    place_scores emW distW storeW catsW (defaultSettings.recommendation_top_k * 3)
      = [(1, 13/10), (2, 51/50)] ∧
    (13 : ℚ)/10 = (9/10) * 1 + (5/10) * (8/10) ∧
    (51 : ℚ)/50 = (3/10) * 1 + (9/10) * (8/10) ∧
    (recommend_places emW distW storeW placesW catsW none none
        defaultSettings).1.map PlaceOut.id = [1, 2] := by
  refine ⟨?_, ?_, ?_, by norm_num, by norm_num, ?_⟩
  · intro em d store cats L pid
    unfold place_scores
    rw [lookupScore_foldl_scoreStep]
    simp [lookupScore_nil]
  · exact similar_places_nodup_fst
  all_goals
    norm_num +decide [recommend_places, effectiveLimit, defaultSettings,
      place_scores, scoreStep, CATEGORY_KEYS, CategoryInfo.get, catsW,
      similar_places, dedupFirst, minRat, sortAsc, insertAsc, addScore,
      CATEGORY_WEIGHTS, emW, distW, storeW, placesW, sortDesc,
      insertDesc, lookupScore, min_def, PlaceOut.ofPlace, List.find?,
      Function.comp]

open Classical in
/-- C8: the geo filter retains exactly the scored places whose haversine
distance (spherical Earth, R = 6371 km) from the filter center is at most
`radius_km` (boundary inclusive), each keeping exactly its accumulated
score; every other place is absent from the filtered score map, its score
discarded. -/
theorem C8_geo_filter :
    ∀ (places : List Place) (scores : List (Int × ℚ)) (f : LocationFilter)
      (x : Int × ℚ),
      x ∈ applyGeoFilter places scores f ↔
        ∃ p ∈ places, (∃ e ∈ scores, e.1 = p.id) ∧
          haversine_km (f.latitude : ℝ) (f.longitude : ℝ) (p.latitude : ℝ)
              (p.longitude : ℝ) ≤ (effRadius f : ℝ) ∧
          x = (p.id, lookupScore scores p.id) := by
  intro places scores f x
  unfold applyGeoFilter
  rw [foldl_guard_append
    (fun p : Place => (p.id, lookupScore scores p.id))
    (fun p : Place =>
      haversine_km (f.latitude : ℝ) (f.longitude : ℝ) (p.latitude : ℝ)
        (p.longitude : ℝ) ≤ (effRadius f : ℝ))]
  simp only [List.not_mem_nil, false_or, List.mem_filter, List.any_eq_true,
    decide_eq_true_eq]
  constructor
  · rintro ⟨p, ⟨hp, hany⟩, hdist, hx⟩
    exact ⟨p, hp, hany, hdist, hx⟩
  · rintro ⟨p, hp, hany, hdist, hx⟩
    exact ⟨p, ⟨hp, hany⟩, hdist, hx⟩

/-- C10: `limit or settings.recommendation_top_k` substitutes the
configured default top-k for a missing limit and for the falsy limit 0
(so those calls behave exactly like limit = top_k, with the candidate
fetch using `3 × top_k` since the candidate limit is `lim * 3`); the
default is 5 when `RECOMMENDATION_TOP_K` is not overridden; at most top_k
places are returned; and a limit-0 call on a non-empty score map with a
positive top-k and resolvable place ids returns a non-empty result. -/
theorem C10_default_limit :
    (∀ (em : String → Vec) (d : Vec → Vec → ℚ) (store : List PlaceEmbedding)
        (places : List Place) (cats : CategoryInfo)
        (f : Option LocationFilter) (s : Settings),
      recommend_places em d store places cats none f s
        = recommend_places em d store places cats
            (some s.recommendation_top_k) f s) ∧
    (∀ (em : String → Vec) (d : Vec → Vec → ℚ) (store : List PlaceEmbedding)
        (places : List Place) (cats : CategoryInfo)
        (f : Option LocationFilter) (s : Settings),
      recommend_places em d store places cats (some 0) f s
        = recommend_places em d store places cats
            (some s.recommendation_top_k) f s) ∧
    defaultSettings.recommendation_top_k = 5 ∧
    (∀ (em : String → Vec) (d : Vec → Vec → ℚ) (store : List PlaceEmbedding)
        (places : List Place) (cats : CategoryInfo)
        (f : Option LocationFilter) (s : Settings),
      ((recommend_places em d store places cats none f s).1).length
        ≤ s.recommendation_top_k) ∧
    (∀ (em : String → Vec) (d : Vec → Vec → ℚ) (store : List PlaceEmbedding)
        (places : List Place) (cats : CategoryInfo) (s : Settings),
      place_scores em d store cats (s.recommendation_top_k * 3) ≠ [] →
      0 < s.recommendation_top_k →
      (∀ pid ∈ (place_scores em d store cats
          (s.recommendation_top_k * 3)).map Prod.fst, ∃ p ∈ places, p.id = pid) →
      (recommend_places em d store places cats (some 0) none s).1 ≠ []) := by
  have heffNone : ∀ k : Nat, effectiveLimit none k = effectiveLimit (some k) k := by
    intro k
    simp [effectiveLimit]
  have heffZero : ∀ k : Nat, effectiveLimit (some 0) k = effectiveLimit (some k) k := by
    intro k
    simp [effectiveLimit]
  refine ⟨?_, ?_, rfl, ?_, ?_⟩
  · intro em d store places cats f s
    simp only [recommend_places]
    rw [heffNone]
  · intro em d store places cats f s
    simp only [recommend_places]
    rw [heffZero]
  · intro em d store places cats f s
    simp only [recommend_places]
    have hlim : effectiveLimit none s.recommendation_top_k
        = s.recommendation_top_k := rfl
    rw [hlim]
    split_ifs with h1 h2
    · simp
    · simp
    · rw [List.length_map]
      refine le_trans (List.length_filterMap_le _ _) ?_
      rw [List.length_map]
      exact List.length_take_le _ _
  · intro em d store places cats s h1 h2 h3
    have he : effectiveLimit (some 0) s.recommendation_top_k
        = s.recommendation_top_k := by simp [effectiveLimit]
    simp only [recommend_places, he]
    rw [if_neg h1]
    have hsd : sortDesc (place_scores em d store cats
        (s.recommendation_top_k * 3)) ≠ [] := by
      intro hc
      have hperm := sortDesc_perm (place_scores em d store cats
        (s.recommendation_top_k * 3))
      rw [hc] at hperm
      exact h1 (hperm.symm.eq_nil)
    have htake : (sortDesc (place_scores em d store cats
        (s.recommendation_top_k * 3))).take s.recommendation_top_k ≠ [] := by
      intro hc
      have hlen := congrArg List.length hc
      rw [List.length_take, List.length_nil] at hlen
      rcases Nat.min_eq_zero_iff.mp hlen with h | h
      · exact absurd h (Nat.pos_iff_ne_zero.mp h2)
      · exact hsd (List.length_eq_zero.mp h)
    rw [if_neg htake]
    simp only [ne_eq, List.map_eq_nil_iff]
    have hmapne : ((sortDesc (place_scores em d store cats
        (s.recommendation_top_k * 3))).take s.recommendation_top_k).map
          (fun r : Int × ℚ => r.1) ≠ [] := by
      simpa [List.map_eq_nil_iff] using htake
    obtain ⟨pid0, rest, hcons⟩ := List.exists_cons_of_ne_nil hmapne
    rw [hcons, List.filterMap_cons]
    have hmem0 : pid0 ∈ ((sortDesc (place_scores em d store cats
        (s.recommendation_top_k * 3))).take s.recommendation_top_k).map
          (fun r : Int × ℚ => r.1) := by
      rw [hcons]; exact List.mem_cons_self _ _
    have hmem1 : pid0 ∈ (sortDesc (place_scores em d store cats
        (s.recommendation_top_k * 3))).map (fun r : Int × ℚ => r.1) := by
      rw [List.map_take] at hmem0
      exact List.take_subset _ _ hmem0
    have hmem2 : pid0 ∈ (place_scores em d store cats
        (s.recommendation_top_k * 3)).map (fun r : Int × ℚ => r.1) :=
      ((sortDesc_perm _).map (fun r : Int × ℚ => r.1)).mem_iff.mp hmem1
    obtain ⟨p, hpmem, hpid⟩ := h3 pid0 hmem2
    have hfind : (places.find? fun p => p.id = pid0).isSome :=
      List.find?_isSome.mpr ⟨p, hpmem, by simp [hpid]⟩
    obtain ⟨pf, hpf⟩ := Option.isSome_iff_exists.mp hfind
    rw [hpf]
    simp

/-- Witness for C10 at a concrete input: a caller passing limit 0 against
a one-place store receives a non-empty result. -/
theorem C10_default_limit_witness :
    (recommend_places emOne distOne storeOne placesOne catsOne (some 0) none
        defaultSettings).1 ≠ [] := by
  have hps : place_scores emOne distOne storeOne catsOne
      (defaultSettings.recommendation_top_k * 3) = [(1, 1/2)] := by
    norm_num +decide [place_scores, scoreStep, CATEGORY_KEYS, CategoryInfo.get,
      catsOne, similar_places, dedupFirst, minRat, sortAsc, insertAsc, addScore,
      CATEGORY_WEIGHTS, emOne, distOne, storeOne, defaultSettings,
      Function.comp, min_def]
  refine C10_default_limit.2.2.2.2 emOne distOne storeOne placesOne catsOne
    defaultSettings ?_ ?_ ?_
  · rw [hps]; simp
  · decide
  · intro pid hpid
    rw [hps] at hpid
    simp only [List.map_cons, List.map_nil, List.mem_singleton] at hpid
    exact ⟨⟨1, "p1", "c1", "addr1", 0, 0⟩, by simp [placesOne], by simp [hpid]⟩

/-- C9: the `uq_review_category_value` constraint declared on the
`review_embeddings` table is an invariant of every reachable store state:
starting from any store satisfying it, every sequence of ingest calls
(any extractor, any — possibly failing — embedding function, including
failed calls whose session is reused) leaves both the committed rows and
the whole session contents free of duplicate
(place_id, category, value_text) triples. -/
theorem C9_unique_triple_invariant :
    ∀ (extract : String → CategoryInfo) (embedE : String → Except Unit Vec)
      (calls : List (Int × String)) (S : List PlaceEmbedding),
      uq_review_category_value S →
      uq_review_category_value
          ((runIngests extract embedE calls ⟨S, []⟩).committed) ∧
      uq_review_category_value
          ((runIngests extract embedE calls ⟨S, []⟩).visible) := by
  intro extract embedE calls S h
  have h0 : uq_review_category_value (DbSession.visible ⟨S, []⟩) := by
    unfold uq_review_category_value at h ⊢
    simpa [DbSession.visible] using h
  have hv := uq_runIngests extract embedE calls ⟨S, []⟩ h0
  refine ⟨?_, hv⟩
  unfold uq_review_category_value DbSession.visible at hv
  rw [List.map_append] at hv
  exact hv.of_append_left

/-- Witness for C9 at a concrete input: ingesting one review into an empty
store preserves triple uniqueness. -/
theorem C9_unique_triple_invariant_witness :
    uq_review_category_value ([] : List PlaceEmbedding) ∧
    uq_review_category_value
      ((runIngests extractMenuA (totalEmbed constVec) [(1, "r")]
        ⟨[], []⟩).committed) :=
  ⟨by decide,
   (C9_unique_triple_invariant extractMenuA (totalEmbed constVec) [(1, "r")] []
     (by decide)).1⟩

/-- C2 (amended): after a successful ingest call (total embedding
function) the repeated call with identical extractor output, and an
arbitrary — even always-failing — embedding function, succeeds without
ever invoking it, performs zero inserts, leaves the session unchanged,
and skips the first call's inserted plus skipped count (the full token
count); `refresh_embeddings` accordingly returns `(categories, 0)`. -/
theorem C2_idempotence_amended :
    ∀ (extract : String → CategoryInfo) (f : String → Vec)
      (g : String → Except Unit Vec) (S : List PlaceEmbedding)
      (pid : Int) (content : String),
      (ingestRun (totalEmbed f) ⟨S, []⟩ pid (extract content)).failed = false ∧
      ingestRun g (ingestRun (totalEmbed f) ⟨S, []⟩ pid (extract content)).sess
          pid (extract content)
        = ⟨(ingestRun (totalEmbed f) ⟨S, []⟩ pid (extract content)).sess, 0,
            (ingestRun (totalEmbed f) ⟨S, []⟩ pid (extract content)).inserted
              + (ingestRun (totalEmbed f) ⟨S, []⟩ pid (extract content)).skipped,
            false⟩ ∧
      refresh_embeddings extract g
          (ingestRun (totalEmbed f) ⟨S, []⟩ pid (extract content)).sess pid content
        = (.ok (extract content, 0),
            (ingestRun (totalEmbed f) ⟨S, []⟩ pid (extract content)).sess) := by
  intro extract f g S pid content
  set cats := extract content with hcats
  obtain ⟨hfail, hcnt, hcomm, hpend⟩ :=
    totalEmbed_keys_fold f pid cats CATEGORY_KEYS ⟨⟨S, []⟩, 0, 0, false⟩ rfl
  have hR := ingestRun_eq_of_not_failed (totalEmbed f) ⟨S, []⟩ pid cats hfail
  have hA : (ingestRun (totalEmbed f) ⟨S, []⟩ pid cats).failed = false := by
    rw [hR]
  have hpres : ∀ k, ∀ t ∈ tokensFor cats k,
      existsTriple (ingestRun (totalEmbed f) ⟨S, []⟩ pid cats).sess pid k t
        = true := by
    intro k t ht
    have hp := foldl_keys_present (totalEmbed f) pid cats CATEGORY_KEYS
      ⟨⟨S, []⟩, 0, 0, false⟩ hfail k (catKey_mem k) t ht
    rw [hR]
    show existsTriple
      ((CATEGORY_KEYS.foldl (ingestCategory (totalEmbed f) pid cats)
        ⟨⟨S, []⟩, 0, 0, false⟩).sess.commit) pid k t = true
    rw [existsTriple_commit]
    exact hp
  have hrun2 := ingestRun_allPresent g
    (ingestRun (totalEmbed f) ⟨S, []⟩ pid cats).sess pid cats hpres
  have hpnil : (ingestRun (totalEmbed f) ⟨S, []⟩ pid cats).sess.pending = [] := by
    rw [hR]
    rfl
  have hcommit2 : (ingestRun (totalEmbed f) ⟨S, []⟩ pid cats).sess.commit
      = (ingestRun (totalEmbed f) ⟨S, []⟩ pid cats).sess :=
    commit_of_pending_nil _ hpnil
  have htot : totalTokens cats
      = (ingestRun (totalEmbed f) ⟨S, []⟩ pid cats).inserted
        + (ingestRun (totalEmbed f) ⟨S, []⟩ pid cats).skipped := by
    rw [hR]
    show totalTokens cats
      = (CATEGORY_KEYS.foldl (ingestCategory (totalEmbed f) pid cats)
          ⟨⟨S, []⟩, 0, 0, false⟩).inserted
        + (CATEGORY_KEYS.foldl (ingestCategory (totalEmbed f) pid cats)
          ⟨⟨S, []⟩, 0, 0, false⟩).skipped
    have hcnt' : (CATEGORY_KEYS.foldl (ingestCategory (totalEmbed f) pid cats)
          ⟨⟨S, []⟩, 0, 0, false⟩).inserted
        + (CATEGORY_KEYS.foldl (ingestCategory (totalEmbed f) pid cats)
          ⟨⟨S, []⟩, 0, 0, false⟩).skipped
        = 0 + 0 + (CATEGORY_KEYS.map fun k => (tokensFor cats k).length).sum := hcnt
    unfold totalTokens
    omega
  have hB : ingestRun g (ingestRun (totalEmbed f) ⟨S, []⟩ pid cats).sess pid cats
      = ⟨(ingestRun (totalEmbed f) ⟨S, []⟩ pid cats).sess, 0,
          (ingestRun (totalEmbed f) ⟨S, []⟩ pid cats).inserted
            + (ingestRun (totalEmbed f) ⟨S, []⟩ pid cats).skipped, false⟩ := by
    rw [hrun2, hcommit2, ← htot]
  refine ⟨hA, hB, ?_⟩
  simp only [refresh_embeddings]
  rw [← hcats, hB]
  simp

/-- C4 (amended): a successful ingest call returns the pair (extracted
categories, inserted count); the committed store grows by exactly
inserted-count rows, and inserted plus the internal skipped counter
accounts for every processed token. -/
theorem C4_return_amended :
    ∀ (extract : String → CategoryInfo) (f : String → Vec)
      (S : List PlaceEmbedding) (pid : Int) (content : String),
      refresh_embeddings extract (totalEmbed f) ⟨S, []⟩ pid content
        = (.ok (extract content,
              (ingestRun (totalEmbed f) ⟨S, []⟩ pid (extract content)).inserted),
            (ingestRun (totalEmbed f) ⟨S, []⟩ pid (extract content)).sess) ∧
      ((ingestRun (totalEmbed f) ⟨S, []⟩ pid
          (extract content)).sess).committed.length
        = S.length
          + (ingestRun (totalEmbed f) ⟨S, []⟩ pid (extract content)).inserted ∧
      (ingestRun (totalEmbed f) ⟨S, []⟩ pid (extract content)).inserted
          + (ingestRun (totalEmbed f) ⟨S, []⟩ pid (extract content)).skipped
        = totalTokens (extract content) := by
  intro extract f S pid content
  set cats := extract content with hcats
  obtain ⟨hfail, hcnt, hcomm, hpend⟩ :=
    totalEmbed_keys_fold f pid cats CATEGORY_KEYS ⟨⟨S, []⟩, 0, 0, false⟩ rfl
  have hR := ingestRun_eq_of_not_failed (totalEmbed f) ⟨S, []⟩ pid cats hfail
  have hcomm' : (CATEGORY_KEYS.foldl (ingestCategory (totalEmbed f) pid cats)
      ⟨⟨S, []⟩, 0, 0, false⟩).sess.committed = S := hcomm
  have hpend' : (CATEGORY_KEYS.foldl (ingestCategory (totalEmbed f) pid cats)
        ⟨⟨S, []⟩, 0, 0, false⟩).sess.pending.length + 0
      = 0 + (CATEGORY_KEYS.foldl (ingestCategory (totalEmbed f) pid cats)
        ⟨⟨S, []⟩, 0, 0, false⟩).inserted := hpend
  refine ⟨?_, ?_, ?_⟩
  · simp only [refresh_embeddings]
    rw [← hcats]
    have hfail' : (ingestRun (totalEmbed f) ⟨S, []⟩ pid cats).failed = false := by
      rw [hR]
    rw [if_neg (by simp [hfail'])]
  · rw [hR]
    show ((CATEGORY_KEYS.foldl (ingestCategory (totalEmbed f) pid cats)
          ⟨⟨S, []⟩, 0, 0, false⟩).sess.committed
        ++ (CATEGORY_KEYS.foldl (ingestCategory (totalEmbed f) pid cats)
          ⟨⟨S, []⟩, 0, 0, false⟩).sess.pending).length
      = S.length + (CATEGORY_KEYS.foldl (ingestCategory (totalEmbed f) pid cats)
        ⟨⟨S, []⟩, 0, 0, false⟩).inserted
    rw [List.length_append, hcomm']
    omega
  · rw [hR]
    show (CATEGORY_KEYS.foldl (ingestCategory (totalEmbed f) pid cats)
        ⟨⟨S, []⟩, 0, 0, false⟩).inserted
      + (CATEGORY_KEYS.foldl (ingestCategory (totalEmbed f) pid cats)
        ⟨⟨S, []⟩, 0, 0, false⟩).skipped
      = totalTokens cats
    have hcnt' : (CATEGORY_KEYS.foldl (ingestCategory (totalEmbed f) pid cats)
          ⟨⟨S, []⟩, 0, 0, false⟩).inserted
        + (CATEGORY_KEYS.foldl (ingestCategory (totalEmbed f) pid cats)
          ⟨⟨S, []⟩, 0, 0, false⟩).skipped
        = 0 + 0 + (CATEGORY_KEYS.map fun k => (tokensFor cats k).length).sum := hcnt
    unfold totalTokens
    omega

end GgUd
